import Mathlib

/-!
Shallow embedding of `safe_stats.py` (gnosis-safe-stats): the summary-statistics
value type, the per-signer accumulator `SafeSignerStats`, and the ingestion /
aggregation loop of `print_safe_stats`, together with theorems settling the
specification claims.

Conventions of the embedding:
* timestamps are integers (POSIX seconds); `MayaDT` subtraction yields a Python
  `timedelta`, and the code reads its `.seconds` attribute, which is the
  normalized seconds-within-a-day component, i.e. `(b - a).seconds = (b - a) % 86400`
  with Python's floor `%` (always in `[0, 86400)`);
* numeric samples are lists of rationals (exact arithmetic stands in for the
  floats of the source; `Decimal` gas amounts are exact rationals);
* Python exceptions (`ValueError` from `min`/`max` on an empty sequence — the
  spec's `EmptySampleError`) are modelled by `Option`, `none` being the raised
  error;
* the Python `dict` keyed by signer address is an insertion-ordered association
  list, exactly as `dict` preserves insertion order.
-/

/-- Result record of the `SummaryStats` Python class (`safe_stats.py` lines 13-21).
The source's `stdev` field is the square root of `stdev_sq`; the square is kept
so that every field is an exact rational (`stdev = Real.sqrt stdev_sq`, and in
particular `stdev = 0 ↔ stdev_sq = 0`). -/
structure SummaryStats where
  min : ℚ
  max : ℚ
  mean : ℚ
  median : ℚ
  stdev_sq : ℚ
deriving DecidableEq, Repr

/-- Python `min(measurements)` on the non-empty list `x :: xs`. -/
def listMin (x : ℚ) (xs : List ℚ) : ℚ := xs.foldl min x

/-- Python `max(measurements)` on the non-empty list `x :: xs`. -/
def listMax (x : ℚ) (xs : List ℚ) : ℚ := xs.foldl max x

/-- Python `statistics.mean`: arithmetic mean. -/
def listMean (l : List ℚ) : ℚ := l.sum / l.length

/-- Python `statistics.median`: sort, take the middle element (odd length) or
the average of the two middle elements (even length). -/
def listMedian (l : List ℚ) : ℚ :=
  if l.length % 2 = 1 then (List.insertionSort (· ≤ ·) l).getD (l.length / 2) 0
  else ((List.insertionSort (· ≤ ·) l).getD (l.length / 2 - 1) 0 +
        (List.insertionSort (· ≤ ·) l).getD (l.length / 2) 0) / 2

/-- Python `statistics.variance` (sample variance), the square of
`statistics.stdev`: `Σ (x - mean)² / (n - 1)`. -/
def sampleVar (l : List ℚ) : ℚ :=
  (l.map (fun v => (v - listMean l) ^ 2)).sum / ((l.length : ℚ) - 1)

/-- `SummaryStats.__init__` (`safe_stats.py` lines 14-21): `min`/`max`/`mean`/`median`
over the sample, and `stdev = 0` unless `len(measurements) > 1`, in which case it
is the sample standard deviation.  On the empty list `min()` raises `ValueError`
(the spec's `EmptySampleError`), modelled as `none`. -/
def summaryStats : List ℚ → Option SummaryStats
  | [] => none
  | x :: xs =>
    some { min := listMin x xs
           max := listMax x xs
           mean := listMean (x :: xs)
           median := listMedian (x :: xs)
           stdev_sq := if 1 < (x :: xs).length then sampleVar (x :: xs) else 0 }

example : summaryStats [3] = some ⟨3, 3, 3, 3, 0⟩ := by
  norm_num [summaryStats, listMin, listMax, listMean, listMedian, sampleVar]
example : summaryStats [1, 3] = some ⟨1, 3, 2, 2, 2⟩ := by
  norm_num [summaryStats, listMin, listMax, listMean, listMedian, sampleVar,
    List.insertionSort, List.orderedInsert]
example : summaryStats [] = none := rfl

/-- Per-signer accumulator, the `SafeSignerStats` Python class
(`safe_stats.py` lines 27-63).  `signing_times` is the `_signing_times` list,
in minutes. -/
structure SafeSignerStats where
  signer_address : String
  num_txs_created : Nat
  num_signings : Nat
  signing_times : List ℚ
  num_executions : Nat
  gas_spent : ℚ
deriving DecidableEq, Repr

/-- `SafeSignerStats.__init__` (lines 28-34): all counters zero, empty sample. -/
def SafeSignerStats.new (address : String) : SafeSignerStats :=
  { signer_address := address
    num_txs_created := 0
    num_signings := 0
    signing_times := []
    num_executions := 0
    gas_spent := 0 }

/-- Lines 36-37. -/
def SafeSignerStats.increment_tx_creation_count (s : SafeSignerStats) : SafeSignerStats :=
  { s with num_txs_created := s.num_txs_created + 1 }

/-- Lines 39-40. -/
def SafeSignerStats.increment_signing_count (s : SafeSignerStats) : SafeSignerStats :=
  { s with num_signings := s.num_signings + 1 }

/-- Lines 42-43. -/
def SafeSignerStats.increment_execution_count (s : SafeSignerStats) : SafeSignerStats :=
  { s with num_executions := s.num_executions + 1 }

/-- Lines 45-47: `from_wei(gas_spent, unit='ether')` is the exact `Decimal`
division by `10^18`, added to the running total. -/
def SafeSignerStats.add_gas_spent (s : SafeSignerStats) (gas_spent : Int) : SafeSignerStats :=
  { s with gas_spent := s.gas_spent + (gas_spent : ℚ) / 10 ^ 18 }

/-- Lines 49-54: `time_taken = (signing_date - tx_creation_date).seconds` — the
`.seconds` attribute of a Python `timedelta` is its normalized
seconds-within-a-day component, i.e. the floor-mod `(signing_date -
tx_creation_date) % 86400`, always in `[0, 86400)`; the appended value is
`time_taken / 60` minutes. -/
def SafeSignerStats.add_signing_time (s : SafeSignerStats)
    (tx_creation_date signing_date : Int) : SafeSignerStats :=
  { s with signing_times :=
      s.signing_times ++ [(((signing_date - tx_creation_date) % 86400 : Int) : ℚ) / 60] }

/-- Line 56-63: `signing_summary_stats` property. -/
def SafeSignerStats.signing_summary_stats (s : SafeSignerStats) : Option SummaryStats :=
  summaryStats s.signing_times

/-- One entry of a transaction's `confirmations` list (fields read by the code:
`owner`, `submissionDate`). -/
structure Confirmation where
  owner : String
  submissionDate : Int
deriving DecidableEq, Repr

/-- One transaction record from the transaction service (fields read by the
code: `isExecuted`, `isSuccessful`, `blockNumber`, `submissionDate`,
`executionDate`, `executor`, `fee`, `confirmations`). -/
structure Transaction where
  isExecuted : Bool
  isSuccessful : Bool
  blockNumber : Int
  submissionDate : Int
  executionDate : Int
  executor : String
  fee : Int
  confirmations : List Confirmation
deriving DecidableEq, Repr

/-- Eligibility filter of lines 93-102: a transaction is kept iff it is
executed, successful, and its block number is not below `from_block_number`. -/
def eligibleTx (from_block_number : Int) (tx : Transaction) : Bool :=
  tx.isExecuted && tx.isSuccessful && !(tx.blockNumber < from_block_number)

/-- The `executed_transactions` list built by lines 92-102. -/
def executedTransactions (from_block_number : Int) (txs : List Transaction) :
    List Transaction :=
  txs.filter (eligibleTx from_block_number)

/-- `num_executed_transactions` (line 104). -/
def numExecutedTransactions (from_block_number : Int) (txs : List Transaction) : Nat :=
  (executedTransactions from_block_number txs).length

/-- Mutable state of the ingestion loop (lines 107-142): the insertion-ordered
`signer_stats_dict`, `num_externally_executed_transactions`, and
`tx_execution_times` (minutes). -/
structure IngestState where
  signer_stats_dict : List (String × SafeSignerStats)
  num_externally_executed_transactions : Nat
  tx_execution_times : List ℚ
deriving DecidableEq, Repr

/-- State before the loop (lines 107-109). -/
def initState : IngestState :=
  { signer_stats_dict := []
    num_externally_executed_transactions := 0
    tx_execution_times := [] }

/-- The Python pattern `if key not in d: d[key] = SafeSignerStats(key)` followed
by a mutation of `d[key]`: update the entry in place when the key is present
(dict keys are unique), otherwise append the freshly created, mutated entry at
the end (dicts preserve insertion order). -/
def dictUpsert (d : List (String × SafeSignerStats)) (k : String)
    (f : SafeSignerStats → SafeSignerStats) : List (String × SafeSignerStats) :=
  match d with
  | [] => [(k, f (SafeSignerStats.new k))]
  | (k', s) :: rest =>
    if k' = k then (k', f s) :: rest
    else (k', s) :: dictUpsert rest k f

/-- Executor branch of lines 121-125: bump the execution count and add the
transaction fee (in wei) to the gas total. -/
def execStep (fee : Int) (s : SafeSignerStats) : SafeSignerStats :=
  (s.increment_execution_count).add_gas_spent fee

/-- Mutation applied to the confirming signer's stats at position `i` of the
confirmations walk (lines 133-142): always count the signing; position 0 is the
creator, later positions record a signing latency instead. -/
def confStep (tx_creation_date : Int) (i : Nat) (c : Confirmation)
    (s : SafeSignerStats) : SafeSignerStats :=
  let s' := s.increment_signing_count
  if i = 0 then s'.increment_tx_creation_count
  else s'.add_signing_time tx_creation_date c.submissionDate

/-- The `for index, confirmation in enumerate(confirmations)` walk of
lines 128-142, as a fold over the already-enumerated list. -/
def processConfs (tx_creation_date : Int) (d : List (String × SafeSignerStats))
    (confs : List (Nat × Confirmation)) : List (String × SafeSignerStats) :=
  confs.foldl (fun d' ic => dictUpsert d' ic.2.owner (confStep tx_creation_date ic.1 ic.2)) d

/-- One iteration of the loop over `executed_transactions` (lines 110-142):
append the execution latency (again via `timedelta.seconds`, hence mod one
day), credit the executor (non-owner counter, or execution + gas on the
owner's ledger), then walk the confirmations. -/
def processTx (owners : List String) (st : IngestState) (tx : Transaction) : IngestState :=
  let st1 : IngestState :=
    { st with tx_execution_times :=
        st.tx_execution_times ++
          [(((tx.executionDate - tx.submissionDate) % 86400 : Int) : ℚ) / 60] }
  let st2 : IngestState :=
    if tx.executor ∈ owners then
      { st1 with signer_stats_dict :=
          dictUpsert st1.signer_stats_dict tx.executor (execStep tx.fee) }
    else
      { st1 with num_externally_executed_transactions :=
          st1.num_externally_executed_transactions + 1 }
  { st2 with signer_stats_dict :=
      processConfs tx.submissionDate st2.signer_stats_dict tx.confirmations.enum }

/-- The whole ingestion pass of `print_safe_stats` (lines 92-142): filter, then
fold `processTx` over the eligible transactions in their given order. -/
def ingest (owners : List String) (from_block_number : Int)
    (txs : List Transaction) : IngestState :=
  (executedTransactions from_block_number txs).foldl (processTx owners) initState

/-- The summary-statistics computations of the rendering phase, in evaluation
order: the overall execution-time statistics (line 146), then one
signing-time statistics per signer in dict order (lines 155-170, line 163).
`none` models an uncaught `ValueError` (`EmptySampleError`) from an empty
sample; no call site guards against it. -/
def renderSummaries (st : IngestState) : Option (SummaryStats × List (String × SummaryStats)) := do
  let overall ← summaryStats st.tx_execution_times
  let per ← st.signer_stats_dict.mapM
    (fun p => (SafeSignerStats.signing_summary_stats p.2).map (fun r => (p.1, r)))
  pure (overall, per)

/-- Total of `txsExecuted` over the ledgers whose address is in the owner set
(the spec's `Σ(ledger.txsExecuted over owner ledgers)`). -/
def ownerExecSum (owners : List String) (d : List (String × SafeSignerStats)) : Nat :=
  (d.map (fun p => if p.1 ∈ owners then p.2.num_executions else 0)).sum

/-- Concrete two-owner wallet used for concrete evaluations. -/
def sampleOwners : List String := ["A", "B"]

/-- Concrete transaction: created and signed by "A" at t = 0, co-signed by "B"
at t = 300 s, executed by "A" at t = 600 s with a fee of `21·10^14` wei. -/
def sampleTx : Transaction :=
  { isExecuted := true, isSuccessful := true, blockNumber := 1, submissionDate := 0,
    executionDate := 600, executor := "A", fee := 21 * 10 ^ 14,
    confirmations := [⟨"A", 0⟩, ⟨"B", 300⟩] }

/-- Concrete transaction executed by "C", an address outside the owner set,
and co-signed by "D", also outside the owner set. -/
def sampleTxNonOwner : Transaction :=
  { isExecuted := true, isSuccessful := true, blockNumber := 2, submissionDate := 1000,
    executionDate := 1600, executor := "C", fee := 10 ^ 15,
    confirmations := [⟨"A", 1000⟩, ⟨"D", 1120⟩] }

/-- Concrete ineligible transaction (not executed). -/
def sampleTxIneligible : Transaction :=
  { isExecuted := false, isSuccessful := false, blockNumber := 3, submissionDate := 2000,
    executionDate := 2000, executor := "A", fee := 0,
    confirmations := [⟨"A", 2000⟩] }

/-! ### Helper lemmas about the summary-statistic components -/

theorem foldl_min_le_init (x : ℚ) (xs : List ℚ) : xs.foldl min x ≤ x := by
  induction xs generalizing x with
  | nil => exact le_refl x
  | cons y ys ih => exact le_trans (ih (min x y)) (min_le_left x y)

theorem foldl_min_le_of_mem (x : ℚ) (xs : List ℚ) :
    ∀ v ∈ x :: xs, xs.foldl min x ≤ v := by
  induction xs generalizing x with
  | nil =>
    intro v hv
    have hvx : v = x := by simpa using hv
    rw [hvx]
    exact le_refl x
  | cons y ys ih =>
    intro v hv
    rcases List.mem_cons.mp hv with h1 | h2
    · rw [h1]
      exact le_trans (foldl_min_le_init (min x y) ys) (min_le_left x y)
    · rcases List.mem_cons.mp h2 with h3 | h4
      · rw [h3]
        exact le_trans (foldl_min_le_init (min x y) ys) (min_le_right x y)
      · exact ih (min x y) v (List.mem_cons_of_mem _ h4)

theorem le_foldl_max_init (x : ℚ) (xs : List ℚ) : x ≤ xs.foldl max x := by
  induction xs generalizing x with
  | nil => exact le_refl x
  | cons y ys ih => exact le_trans (le_max_left x y) (ih (max x y))

theorem mem_le_foldl_max (x : ℚ) (xs : List ℚ) :
    ∀ v ∈ x :: xs, v ≤ xs.foldl max x := by
  induction xs generalizing x with
  | nil =>
    intro v hv
    have hvx : v = x := by simpa using hv
    rw [hvx]
    exact le_refl x
  | cons y ys ih =>
    intro v hv
    rcases List.mem_cons.mp hv with h1 | h2
    · rw [h1]
      exact le_trans (le_max_left x y) (le_foldl_max_init (max x y) ys)
    · rcases List.mem_cons.mp h2 with h3 | h4
      · rw [h3]
        exact le_trans (le_max_right x y) (le_foldl_max_init (max x y) ys)
      · exact ih (max x y) v (List.mem_cons_of_mem _ h4)

theorem getD_mem_of_lt {α : Type} (l : List α) (i : Nat) (d : α)
    (h : i < l.length) : l.getD i d ∈ l := by
  induction l generalizing i with
  | nil => simp at h
  | cons a t ih =>
    cases i with
    | zero => simp [List.getD]
    | succ j =>
      have : (a :: t).getD (j + 1) d = t.getD j d := rfl
      rw [this]
      exact List.mem_cons_of_mem _ (ih j (by simpa using h))

theorem mul_length_le_sum (l : List ℚ) (c : ℚ) (h : ∀ v ∈ l, c ≤ v) :
    (l.length : ℚ) * c ≤ l.sum := by
  induction l with
  | nil => simp
  | cons a t ih =>
    have ha := h a (by simp)
    have ht := ih (fun v hv => h v (List.mem_cons_of_mem _ hv))
    have hc : ((a :: t).length : ℚ) * c = (t.length : ℚ) * c + c := by
      push_cast [List.length_cons]
      ring
    rw [hc, List.sum_cons]
    linarith

theorem sum_le_mul_length (l : List ℚ) (c : ℚ) (h : ∀ v ∈ l, v ≤ c) :
    l.sum ≤ (l.length : ℚ) * c := by
  induction l with
  | nil => simp
  | cons a t ih =>
    have ha := h a (by simp)
    have ht := ih (fun v hv => h v (List.mem_cons_of_mem _ hv))
    have hc : ((a :: t).length : ℚ) * c = (t.length : ℚ) * c + c := by
      push_cast [List.length_cons]
      ring
    rw [hc, List.sum_cons]
    linarith

theorem listMin_le_mean (x : ℚ) (xs : List ℚ) : listMin x xs ≤ listMean (x :: xs) := by
  have hn : (0 : ℚ) < ((x :: xs).length : ℚ) := by
    simp
    positivity
  rw [listMean, le_div_iff₀ hn]
  have := mul_length_le_sum (x :: xs) (listMin x xs) (foldl_min_le_of_mem x xs)
  linarith

theorem mean_le_listMax (x : ℚ) (xs : List ℚ) : listMean (x :: xs) ≤ listMax x xs := by
  have hn : (0 : ℚ) < ((x :: xs).length : ℚ) := by
    simp
    positivity
  rw [listMean, div_le_iff₀ hn]
  have := sum_le_mul_length (x :: xs) (listMax x xs) (mem_le_foldl_max x xs)
  linarith

theorem listMedian_bounds (x : ℚ) (xs : List ℚ) :
    listMin x xs ≤ listMedian (x :: xs) ∧ listMedian (x :: xs) ≤ listMax x xs := by
  have hlen : 0 < (x :: xs).length := by simp
  have hslen : (List.insertionSort (· ≤ ·) (x :: xs)).length = (x :: xs).length :=
    List.length_insertionSort _ _
  have hmem : ∀ i, i < (x :: xs).length →
      listMin x xs ≤ (List.insertionSort (· ≤ ·) (x :: xs)).getD i 0 ∧
        (List.insertionSort (· ≤ ·) (x :: xs)).getD i 0 ≤ listMax x xs := by
    intro i hi
    have hm : (List.insertionSort (· ≤ ·) (x :: xs)).getD i 0 ∈ (x :: xs) := by
      have := getD_mem_of_lt (List.insertionSort (· ≤ ·) (x :: xs)) i 0 (by omega)
      simpa using this
    exact ⟨foldl_min_le_of_mem x xs _ hm, mem_le_foldl_max x xs _ hm⟩
  unfold listMedian
  by_cases hpar : (x :: xs).length % 2 = 1
  · rw [if_pos hpar]
    exact hmem _ (Nat.div_lt_self hlen one_lt_two)
  · rw [if_neg hpar]
    have h2 : 2 ≤ (x :: xs).length := by omega
    have hA := hmem ((x :: xs).length / 2 - 1) (by omega)
    have hB := hmem ((x :: xs).length / 2) (by omega)
    obtain ⟨a1, a2⟩ := hA
    obtain ⟨b1, b2⟩ := hB
    constructor
    · linarith
    · linarith

/-! ### Claims about `SummaryStats` -/

/-- C5: constructing the summary statistics fails (raises the
`EmptySampleError`, modelled by `none`) exactly when the input sequence is
empty; every non-empty sequence yields a `{min, max, mean, median, stdev}`
record. -/
theorem summaryStats_none_iff_empty (ms : List ℚ) :
    summaryStats ms = none ↔ ms = [] := by
  cases ms <;> simp [summaryStats]

/-- Witness for C5 at concrete inputs: the empty sample fails, a non-empty
sample does not. -/
theorem summaryStats_none_iff_empty_witness :
    summaryStats ([] : List ℚ) = none ∧ ¬ summaryStats [(4 : ℚ)] = none :=
  ⟨(summaryStats_none_iff_empty []).mpr rfl,
   fun h => by simpa using (summaryStats_none_iff_empty [(4 : ℚ)]).mp h⟩

/-- C7: for a single-element sample `[x]` the summary is
`min = max = mean = median = x` with `stdev = 0` (recorded as `stdev_sq = 0`,
so the standard deviation `√(stdev_sq)` is `0`); more generally `stdev = 0`
whenever the sample has fewer than 2 elements, and for 2 or more elements
`stdev` is the sample standard deviation (its square is `sampleVar`). -/
theorem summaryStats_singleton_stdev_policy :
    (∀ x : ℚ, summaryStats [x] = some ⟨x, x, x, x, 0⟩) ∧
    (∀ ms : List ℚ, ms.length < 2 → ∀ r, summaryStats ms = some r →
      r.stdev_sq = 0 ∧ Real.sqrt (r.stdev_sq : ℝ) = 0) ∧
    (∀ ms : List ℚ, 2 ≤ ms.length → ∀ r, summaryStats ms = some r →
      r.stdev_sq = sampleVar ms) := by
  refine ⟨?_, ?_, ?_⟩
  · intro x
    simp [summaryStats, listMin, listMax, listMean, listMedian,
      List.insertionSort, List.orderedInsert, List.getD]
  · intro ms hlen r h
    cases ms with
    | nil => simp [summaryStats] at h
    | cons x xs =>
      cases xs with
      | nil =>
        have hr : r.stdev_sq = 0 := by
          have h' := h
          simp [summaryStats] at h'
          rw [← h']
        refine ⟨hr, ?_⟩
        rw [hr]
        simp
      | cons y ys =>
        simp only [List.length_cons] at hlen
        omega
  · intro ms hlen r h
    cases ms with
    | nil => simp [summaryStats] at h
    | cons x xs =>
      cases xs with
      | nil => simp at hlen
      | cons y ys =>
        have h' := h
        simp only [summaryStats, Option.some.injEq] at h'
        rw [← h']
        simp

/-- Witness for C7 at concrete inputs: the singleton sample `[5]` and the
two-element sample `[1, 3]` (whose sample variance is `2`). -/
theorem summaryStats_singleton_stdev_policy_witness :
    summaryStats [(5 : ℚ)] = some ⟨5, 5, 5, 5, 0⟩ ∧
    ((⟨5, 5, 5, 5, 0⟩ : SummaryStats).stdev_sq = 0 ∧
      Real.sqrt (((⟨5, 5, 5, 5, 0⟩ : SummaryStats).stdev_sq : ℚ) : ℝ) = 0) ∧
    (⟨1, 3, 2, 2, 2⟩ : SummaryStats).stdev_sq = sampleVar [(1 : ℚ), 3] :=
  ⟨summaryStats_singleton_stdev_policy.1 5,
   summaryStats_singleton_stdev_policy.2.1 [(5 : ℚ)] (by norm_num)
     ⟨5, 5, 5, 5, 0⟩ (summaryStats_singleton_stdev_policy.1 5),
   summaryStats_singleton_stdev_policy.2.2 [(1 : ℚ), 3] (by norm_num)
     ⟨1, 3, 2, 2, 2⟩ (by
       norm_num [summaryStats, listMin, listMax, listMean, listMedian, sampleVar,
         List.insertionSort, List.orderedInsert])⟩

/-- C8: for every non-empty sample the summary satisfies
`min ≤ median ≤ max` and `min ≤ mean ≤ max`. -/
theorem summaryStats_min_le_median_mean_le_max (ms : List ℚ) (r : SummaryStats)
    (h : summaryStats ms = some r) :
    r.min ≤ r.median ∧ r.median ≤ r.max ∧ r.min ≤ r.mean ∧ r.mean ≤ r.max := by
  cases ms with
  | nil => simp [summaryStats] at h
  | cons x xs =>
    simp only [summaryStats, Option.some.injEq] at h
    rw [← h]
    exact ⟨(listMedian_bounds x xs).1, (listMedian_bounds x xs).2,
      listMin_le_mean x xs, mean_le_listMax x xs⟩

/-- Witness for C8 at the concrete sample `[3, 1, 2]`. -/
theorem summaryStats_min_le_median_mean_le_max_witness :
    (⟨1, 3, 2, 2, 1⟩ : SummaryStats).min ≤ (⟨1, 3, 2, 2, 1⟩ : SummaryStats).median ∧
    (⟨1, 3, 2, 2, 1⟩ : SummaryStats).median ≤ (⟨1, 3, 2, 2, 1⟩ : SummaryStats).max ∧
    (⟨1, 3, 2, 2, 1⟩ : SummaryStats).min ≤ (⟨1, 3, 2, 2, 1⟩ : SummaryStats).mean ∧
    (⟨1, 3, 2, 2, 1⟩ : SummaryStats).mean ≤ (⟨1, 3, 2, 2, 1⟩ : SummaryStats).max :=
  summaryStats_min_le_median_mean_le_max [(3 : ℚ), 1, 2] ⟨1, 3, 2, 2, 1⟩ (by
    norm_num [summaryStats, listMin, listMax, listMean, listMedian, sampleVar,
      List.insertionSort, List.orderedInsert])

/-! ### Helper lemmas about the ingestion loop -/

theorem dictUpsert_forall {P : String × SafeSignerStats → Prop}
    (d : List (String × SafeSignerStats)) (k : String)
    (f : SafeSignerStats → SafeSignerStats)
    (hd : ∀ p ∈ d, P p)
    (hf : ∀ s, P (k, s) → P (k, f s))
    (hnew : P (k, f (SafeSignerStats.new k))) :
    ∀ p ∈ dictUpsert d k f, P p := by
  induction d with
  | nil =>
    intro p hp
    simp only [dictUpsert, List.mem_singleton] at hp
    rw [hp]
    exact hnew
  | cons a rest ih =>
    intro p hp
    obtain ⟨k', s⟩ := a
    simp only [dictUpsert] at hp
    by_cases hk : k' = k
    · rw [if_pos hk] at hp
      subst hk
      rcases List.mem_cons.mp hp with h1 | h2
      · rw [h1]
        exact hf s (hd (k', s) (List.mem_cons_self _ _))
      · exact hd p (List.mem_cons_of_mem _ h2)
    · rw [if_neg hk] at hp
      rcases List.mem_cons.mp hp with h1 | h2
      · rw [h1]
        exact hd (k', s) (List.mem_cons_self _ _)
      · exact ih (fun q hq => hd q (List.mem_cons_of_mem _ hq)) p h2

theorem processConfs_forall {P : String × SafeSignerStats → Prop}
    (tcd : Int) (confs : List (Nat × Confirmation))
    (hf : ∀ k i c s, P (k, s) → P (k, confStep tcd i c s))
    (hnew : ∀ k i c, P (k, confStep tcd i c (SafeSignerStats.new k)))
    (d : List (String × SafeSignerStats)) (hd : ∀ p ∈ d, P p) :
    ∀ p ∈ processConfs tcd d confs, P p := by
  induction confs generalizing d with
  | nil => exact hd
  | cons ic rest ih =>
    have h1 : ∀ p ∈ dictUpsert d ic.2.owner (confStep tcd ic.1 ic.2), P p :=
      dictUpsert_forall d ic.2.owner _ hd (fun s hs => hf _ ic.1 ic.2 s hs)
        (hnew _ ic.1 ic.2)
    exact ih (dictUpsert d ic.2.owner (confStep tcd ic.1 ic.2)) h1

theorem processTx_forall {P : String × SafeSignerStats → Prop}
    (owners : List String) (tx : Transaction) (st : IngestState)
    (hd : ∀ p ∈ st.signer_stats_dict, P p)
    (hexec : ∀ k, k ∈ owners → ∀ s, P (k, s) → P (k, execStep tx.fee s))
    (hexecnew : ∀ k, k ∈ owners → P (k, execStep tx.fee (SafeSignerStats.new k)))
    (hconf : ∀ k i c s, P (k, s) → P (k, confStep tx.submissionDate i c s))
    (hconfnew : ∀ k i c, P (k, confStep tx.submissionDate i c (SafeSignerStats.new k))) :
    ∀ p ∈ (processTx owners st tx).signer_stats_dict, P p := by
  unfold processTx
  by_cases hx : tx.executor ∈ owners
  · simp only [hx, if_true]
    exact processConfs_forall tx.submissionDate tx.confirmations.enum hconf hconfnew _
      (dictUpsert_forall _ tx.executor _ hd (fun s hs => hexec _ hx s hs) (hexecnew _ hx))
  · simp only [hx, if_false]
    exact processConfs_forall tx.submissionDate tx.confirmations.enum hconf hconfnew _ hd

theorem foldl_processTx_forall {P : String × SafeSignerStats → Prop}
    (owners : List String) (l : List Transaction)
    (hexec : ∀ fee k, k ∈ owners → ∀ s, P (k, s) → P (k, execStep fee s))
    (hexecnew : ∀ fee k, k ∈ owners → P (k, execStep fee (SafeSignerStats.new k)))
    (hconf : ∀ tcd k i c s, P (k, s) → P (k, confStep tcd i c s))
    (hconfnew : ∀ tcd k i c, P (k, confStep tcd i c (SafeSignerStats.new k))) :
    ∀ st : IngestState, (∀ p ∈ st.signer_stats_dict, P p) →
      ∀ p ∈ (l.foldl (processTx owners) st).signer_stats_dict, P p := by
  induction l with
  | nil => exact fun st hd => hd
  | cons tx rest ih =>
    intro st hd
    exact ih (processTx owners st tx)
      (processTx_forall owners tx st hd (hexec tx.fee) (hexecnew tx.fee)
        (hconf tx.submissionDate) (hconfnew tx.submissionDate))

theorem ingest_forall {P : String × SafeSignerStats → Prop}
    (owners : List String) (fb : Int) (txs : List Transaction)
    (hexec : ∀ fee k, k ∈ owners → ∀ s, P (k, s) → P (k, execStep fee s))
    (hexecnew : ∀ fee k, k ∈ owners → P (k, execStep fee (SafeSignerStats.new k)))
    (hconf : ∀ tcd k i c s, P (k, s) → P (k, confStep tcd i c s))
    (hconfnew : ∀ tcd k i c, P (k, confStep tcd i c (SafeSignerStats.new k))) :
    ∀ p ∈ (ingest owners fb txs).signer_stats_dict, P p :=
  foldl_processTx_forall owners (executedTransactions fb txs)
    hexec hexecnew hconf hconfnew initState (by simp [initState])

/-! ### Claims about the ingestion loop -/

/-- C1: after ingesting any transaction list, every signer ledger satisfies
`txsSigned ≥ txsCreated`, and the signing-latency sample has exactly
`txsSigned - txsCreated` entries (each non-creation signing contributes one
latency sample, creation signings none). -/
theorem ingest_signed_ge_created_latency_len
    (owners : List String) (fb : Int) (txs : List Transaction) :
    ∀ p ∈ (ingest owners fb txs).signer_stats_dict,
      p.2.num_txs_created ≤ p.2.num_signings ∧
        p.2.signing_times.length = p.2.num_signings - p.2.num_txs_created := by
  have main : ∀ p ∈ (ingest owners fb txs).signer_stats_dict,
      p.2.num_txs_created ≤ p.2.num_signings ∧
        p.2.signing_times.length + p.2.num_txs_created = p.2.num_signings := by
    refine ingest_forall owners fb txs ?_ ?_ ?_ ?_
    · intro fee k hk s hs
      dsimp only at hs ⊢
      simpa [execStep, SafeSignerStats.increment_execution_count,
        SafeSignerStats.add_gas_spent] using hs
    · intro fee k hk
      simp [execStep, SafeSignerStats.new, SafeSignerStats.increment_execution_count,
        SafeSignerStats.add_gas_spent]
    · intro tcd k i c s hs
      dsimp only at hs ⊢
      obtain ⟨h1, h2⟩ := hs
      by_cases hi : i = 0
      · simp only [confStep, hi, if_true, SafeSignerStats.increment_signing_count,
          SafeSignerStats.increment_tx_creation_count]
        omega
      · simp only [confStep, hi, if_false, SafeSignerStats.increment_signing_count,
          SafeSignerStats.add_signing_time, List.length_append]
        simp only [List.length_singleton]
        omega
    · intro tcd k i c
      by_cases hi : i = 0
      · simp [confStep, hi, SafeSignerStats.new, SafeSignerStats.increment_signing_count,
          SafeSignerStats.increment_tx_creation_count]
      · simp [confStep, hi, SafeSignerStats.new, SafeSignerStats.increment_signing_count,
          SafeSignerStats.add_signing_time]
  intro p hp
  obtain ⟨h1, h2⟩ := main p hp
  exact ⟨h1, by omega⟩

/-- Witness for C1: ingesting `sampleTx` from scratch, the ledger of the
co-signer "B" has `txsSigned = 1 ≥ 0 = txsCreated` and one latency sample,
`1 = 1 - 0`. -/
theorem ingest_signed_ge_created_latency_len_witness :
    (("B", (⟨"B", 0, 1, [5], 0, 0⟩ : SafeSignerStats)) :
        String × SafeSignerStats).2.num_txs_created ≤
      (("B", (⟨"B", 0, 1, [5], 0, 0⟩ : SafeSignerStats)) :
        String × SafeSignerStats).2.num_signings ∧
    (("B", (⟨"B", 0, 1, [5], 0, 0⟩ : SafeSignerStats)) :
        String × SafeSignerStats).2.signing_times.length =
      (("B", (⟨"B", 0, 1, [5], 0, 0⟩ : SafeSignerStats)) :
          String × SafeSignerStats).2.num_signings -
        (("B", (⟨"B", 0, 1, [5], 0, 0⟩ : SafeSignerStats)) :
          String × SafeSignerStats).2.num_txs_created := by
  refine ingest_signed_ge_created_latency_len sampleOwners 0 [sampleTx]
    ("B", ⟨"B", 0, 1, [5], 0, 0⟩) ?_
  have hAB : ("A" : String) ≠ "B" := by decide
  norm_num [ingest, executedTransactions, eligibleTx, initState, processTx, processConfs,
    dictUpsert, execStep, confStep, List.enum, List.enumFrom, SafeSignerStats.new,
    SafeSignerStats.increment_execution_count, SafeSignerStats.add_gas_spent,
    SafeSignerStats.increment_signing_count, SafeSignerStats.increment_tx_creation_count,
    SafeSignerStats.add_signing_time, sampleTx, sampleOwners, hAB]

/-- C2: a transaction is kept by the eligibility filter iff it is in the input
list with `executed = true`, `successful = true` and `blockNumber ≥
fromBlockNumber` (inclusive bound: equality is included); an excluded
transaction contributes nothing — appending it changes neither the ingestion
state (no ledger, no aggregate) nor the eligible-transaction count. -/
theorem executedTransactions_mem_iff (fb : Int) (txs : List Transaction) (tx : Transaction) :
    (tx ∈ executedTransactions fb txs ↔
      tx ∈ txs ∧ tx.isExecuted = true ∧ tx.isSuccessful = true ∧ fb ≤ tx.blockNumber) ∧
    (tx ∈ txs → tx.isExecuted = true → tx.isSuccessful = true → tx.blockNumber = fb →
      tx ∈ executedTransactions fb txs) ∧
    (eligibleTx fb tx = false →
      ∀ owners, ingest owners fb (txs ++ [tx]) = ingest owners fb txs ∧
        numExecutedTransactions fb (txs ++ [tx]) = numExecutedTransactions fb txs) := by
  have hmem : tx ∈ executedTransactions fb txs ↔
      tx ∈ txs ∧ tx.isExecuted = true ∧ tx.isSuccessful = true ∧ fb ≤ tx.blockNumber := by
    rw [executedTransactions, List.mem_filter]
    simp [eligibleTx, not_lt, and_assoc]
  refine ⟨hmem, ?_, ?_⟩
  · intro h1 h2 h3 h4
    exact hmem.mpr ⟨h1, h2, h3, le_of_eq h4.symm⟩
  · intro h owners
    constructor
    · rw [ingest, ingest, executedTransactions, executedTransactions, List.filter_append]
      simp [h]
    · rw [numExecutedTransactions, numExecutedTransactions,
        executedTransactions, executedTransactions, List.filter_append]
      simp [h]

/-- Witness for C2: `sampleTx` (block 1) is kept with `fromBlockNumber = 1`
(inclusive boundary), and appending the ineligible `sampleTxIneligible`
changes nothing. -/
theorem executedTransactions_mem_iff_witness :
    sampleTx ∈ executedTransactions 1 [sampleTx] ∧
    (ingest sampleOwners 0 ([sampleTx] ++ [sampleTxIneligible]) =
        ingest sampleOwners 0 [sampleTx] ∧
      numExecutedTransactions 0 ([sampleTx] ++ [sampleTxIneligible]) =
        numExecutedTransactions 0 [sampleTx]) :=
  ⟨(executedTransactions_mem_iff 1 [sampleTx] sampleTx).2.1
      (by simp) (by rfl) (by rfl) (by rfl),
   (executedTransactions_mem_iff 0 [sampleTx] sampleTxIneligible).2.2
      (by rfl) sampleOwners⟩

/-- C9: the percentage denominators in the per-signer rendering never divide by
zero — if the signer ledger map is non-empty after ingestion then at least one
eligible transaction was processed (`num_executed_transactions ≥ 1`), because
ledgers are only created while processing an eligible transaction. -/
theorem nonempty_dict_eligible_count_pos
    (owners : List String) (fb : Int) (txs : List Transaction)
    (h : (ingest owners fb txs).signer_stats_dict ≠ []) :
    1 ≤ numExecutedTransactions fb txs := by
  rw [numExecutedTransactions]
  rcases hl : executedTransactions fb txs with _ | ⟨t, rest⟩
  · exfalso
    apply h
    rw [ingest, hl]
    rfl
  · simp

/-- Witness for C9: after ingesting `sampleTx` the dict is non-empty and the
eligible count is `1`. -/
theorem nonempty_dict_eligible_count_pos_witness :
    1 ≤ numExecutedTransactions 0 [sampleTx] := by
  refine nonempty_dict_eligible_count_pos sampleOwners 0 [sampleTx] ?_
  have hAB : ("A" : String) ≠ "B" := by decide
  norm_num [ingest, executedTransactions, eligibleTx, initState, processTx, processConfs,
    dictUpsert, execStep, confStep, List.enum, List.enumFrom, SafeSignerStats.new,
    SafeSignerStats.increment_execution_count, SafeSignerStats.add_gas_spent,
    SafeSignerStats.increment_signing_count, SafeSignerStats.increment_tx_creation_count,
    SafeSignerStats.add_signing_time, sampleTx, sampleOwners, hAB]
  simp

/-- Bounds for any value produced by the `timedelta.seconds` pattern: the
floor-mod lands in `[0, 86400)` seconds, so the recorded value lands in
`[0, 1440)` minutes. -/
theorem mod_day_div_bounds (a b : Int) :
    0 ≤ (((b - a) % 86400 : Int) : ℚ) / 60 ∧ (((b - a) % 86400 : Int) : ℚ) / 60 < 1440 := by
  have h1 : (0 : Int) ≤ (b - a) % 86400 := Int.emod_nonneg _ (by norm_num)
  have h2 : (b - a) % 86400 < 86400 := Int.emod_lt_of_pos _ (by norm_num)
  constructor
  · apply div_nonneg _ (by norm_num : (0 : ℚ) ≤ 60)
    exact_mod_cast h1
  · rw [div_lt_iff₀ (by norm_num : (0 : ℚ) < 60)]
    have : ((b - a) % 86400 : Int) < ((86400 : Int)) := h2
    calc (((b - a) % 86400 : Int) : ℚ) < ((86400 : Int) : ℚ) := by exact_mod_cast this
    _ = 1440 * 60 := by norm_num

/-- The execution-latency list grows by exactly the `timedelta.seconds`-derived
value of the processed transaction; nothing else in `processTx` touches it. -/
theorem processTx_times (owners : List String) (st : IngestState) (tx : Transaction) :
    (processTx owners st tx).tx_execution_times =
      st.tx_execution_times ++
        [(((tx.executionDate - tx.submissionDate) % 86400 : Int) : ℚ) / 60] := by
  unfold processTx
  by_cases hx : tx.executor ∈ owners <;> simp [hx]

/-- C10: every value the ingestion pass puts into a signer's signing-latency
sample or into the wallet-wide execution-latency sample lies in `[0, 1440)`
minutes, for all input timestamps, because only the normalized
seconds-within-a-day component of the difference is recorded. -/
theorem ingest_latencies_in_day_range
    (owners : List String) (fb : Int) (txs : List Transaction) :
    (∀ v ∈ (ingest owners fb txs).tx_execution_times, 0 ≤ v ∧ v < 1440) ∧
    (∀ p ∈ (ingest owners fb txs).signer_stats_dict,
      ∀ v ∈ p.2.signing_times, 0 ≤ v ∧ v < 1440) := by
  constructor
  · have gen : ∀ (l : List Transaction) (st : IngestState),
        (∀ v ∈ st.tx_execution_times, 0 ≤ v ∧ v < 1440) →
        ∀ v ∈ (l.foldl (processTx owners) st).tx_execution_times, 0 ≤ v ∧ v < 1440 := by
      intro l
      induction l with
      | nil => exact fun st h => h
      | cons tx rest ih =>
        intro st h
        refine ih (processTx owners st tx) ?_
        rw [processTx_times]
        intro v hv
        rcases List.mem_append.mp hv with h1 | h2
        · exact h v h1
        · have : v = (((tx.executionDate - tx.submissionDate) % 86400 : Int) : ℚ) / 60 := by
            simpa using h2
          rw [this]
          exact mod_day_div_bounds _ _
    exact gen (executedTransactions fb txs) initState (by simp [initState])
  · refine ingest_forall owners fb txs ?_ ?_ ?_ ?_
    · intro fee k hk s hs
      dsimp only at hs ⊢
      simpa [execStep, SafeSignerStats.increment_execution_count,
        SafeSignerStats.add_gas_spent] using hs
    · intro fee k hk
      simp [execStep, SafeSignerStats.new, SafeSignerStats.increment_execution_count,
        SafeSignerStats.add_gas_spent]
    · intro tcd k i c s hs
      dsimp only at hs ⊢
      by_cases hi : i = 0
      · simpa [confStep, hi, SafeSignerStats.increment_signing_count,
          SafeSignerStats.increment_tx_creation_count] using hs
      · simp only [confStep, hi, if_false, SafeSignerStats.increment_signing_count,
          SafeSignerStats.add_signing_time]
        intro v hv
        rcases List.mem_append.mp hv with h1 | h2
        · exact hs v h1
        · have : v = (((c.submissionDate - tcd) % 86400 : Int) : ℚ) / 60 := by
            simpa using h2
          rw [this]
          exact mod_day_div_bounds _ _
    · intro tcd k i c
      dsimp only
      by_cases hi : i = 0
      · simp [confStep, hi, SafeSignerStats.new, SafeSignerStats.increment_signing_count,
          SafeSignerStats.increment_tx_creation_count]
      · simp only [confStep, hi, if_false, SafeSignerStats.new,
          SafeSignerStats.increment_signing_count, SafeSignerStats.add_signing_time]
        intro v hv
        have : v = (((c.submissionDate - tcd) % 86400 : Int) : ℚ) / 60 := by
          simpa using hv
        rw [this]
        exact mod_day_div_bounds _ _

/-- Witness for C10: the concrete ingested latencies `10` minutes (execution)
and `5` minutes (signing) are in `[0, 1440)`. -/
theorem ingest_latencies_in_day_range_witness :
    (0 ≤ (10 : ℚ) ∧ (10 : ℚ) < 1440) ∧ (0 ≤ (5 : ℚ) ∧ (5 : ℚ) < 1440) := by
  have hAB : ("A" : String) ≠ "B" := by decide
  constructor
  · refine (ingest_latencies_in_day_range sampleOwners 0 [sampleTx]).1 10 ?_
    norm_num [ingest, executedTransactions, eligibleTx, initState, processTx, processConfs,
      dictUpsert, execStep, confStep, List.enum, List.enumFrom, SafeSignerStats.new,
      SafeSignerStats.increment_execution_count, SafeSignerStats.add_gas_spent,
      SafeSignerStats.increment_signing_count, SafeSignerStats.increment_tx_creation_count,
      SafeSignerStats.add_signing_time, sampleTx, sampleOwners, hAB]
  · refine (ingest_latencies_in_day_range sampleOwners 0 [sampleTx]).2
      ("B", ⟨"B", 0, 1, [5], 0, 0⟩) ?_ 5 ?_
    · norm_num [ingest, executedTransactions, eligibleTx, initState, processTx, processConfs,
        dictUpsert, execStep, confStep, List.enum, List.enumFrom, SafeSignerStats.new,
        SafeSignerStats.increment_execution_count, SafeSignerStats.add_gas_spent,
        SafeSignerStats.increment_signing_count, SafeSignerStats.increment_tx_creation_count,
        SafeSignerStats.add_signing_time, sampleTx, sampleOwners, hAB]
    · simp

/-- Confirmation processing never touches execution counts. -/
theorem confStep_num_executions (tcd : Int) (i : Nat) (c : Confirmation)
    (s : SafeSignerStats) : (confStep tcd i c s).num_executions = s.num_executions := by
  by_cases hi : i = 0 <;>
    simp [confStep, hi, SafeSignerStats.increment_signing_count,
      SafeSignerStats.increment_tx_creation_count, SafeSignerStats.add_signing_time]

/-- Confirmation processing never touches gas totals. -/
theorem confStep_gas_spent (tcd : Int) (i : Nat) (c : Confirmation)
    (s : SafeSignerStats) : (confStep tcd i c s).gas_spent = s.gas_spent := by
  by_cases hi : i = 0 <;>
    simp [confStep, hi, SafeSignerStats.increment_signing_count,
      SafeSignerStats.increment_tx_creation_count, SafeSignerStats.add_signing_time]

/-- The executor branch bumps the execution count by exactly one. -/
theorem execStep_num_executions (fee : Int) (s : SafeSignerStats) :
    (execStep fee s).num_executions = s.num_executions + 1 := by
  simp [execStep, SafeSignerStats.increment_execution_count, SafeSignerStats.add_gas_spent]

/-- An upsert whose mutation preserves execution counts preserves the
owner-ledger execution total. -/
theorem ownerExecSum_upsert_const (owners : List String)
    (d : List (String × SafeSignerStats)) (k : String)
    (f : SafeSignerStats → SafeSignerStats)
    (hf : ∀ s, (f s).num_executions = s.num_executions) :
    ownerExecSum owners (dictUpsert d k f) = ownerExecSum owners d := by
  induction d with
  | nil =>
    by_cases hk : k ∈ owners <;>
      simp [dictUpsert, ownerExecSum, hk, hf, SafeSignerStats.new]
  | cons a rest ih =>
    obtain ⟨k', s⟩ := a
    by_cases hk : k' = k
    · simp [dictUpsert, hk, ownerExecSum, hf]
    · simp only [dictUpsert, if_neg hk, ownerExecSum, List.map_cons, List.sum_cons] at ih ⊢
      omega

/-- An upsert at an owner key whose mutation bumps the execution count by one
bumps the owner-ledger execution total by one. -/
theorem ownerExecSum_upsert_inc (owners : List String)
    (d : List (String × SafeSignerStats)) (k : String)
    (f : SafeSignerStats → SafeSignerStats)
    (hk : k ∈ owners)
    (hf : ∀ s, (f s).num_executions = s.num_executions + 1) :
    ownerExecSum owners (dictUpsert d k f) = ownerExecSum owners d + 1 := by
  induction d with
  | nil => simp [dictUpsert, ownerExecSum, hk, hf, SafeSignerStats.new]
  | cons a rest ih =>
    obtain ⟨k', s⟩ := a
    by_cases hkk : k' = k
    · subst hkk
      simp [dictUpsert, ownerExecSum, hk, hf]
      omega
    · simp only [dictUpsert, if_neg hkk, ownerExecSum, List.map_cons, List.sum_cons] at ih ⊢
      omega

/-- The whole confirmations walk preserves the owner-ledger execution total. -/
theorem processConfs_execSum (owners : List String) (tcd : Int)
    (confs : List (Nat × Confirmation)) :
    ∀ d, ownerExecSum owners (processConfs tcd d confs) = ownerExecSum owners d := by
  induction confs with
  | nil => exact fun d => rfl
  | cons ic rest ih =>
    intro d
    have h1 : ownerExecSum owners (dictUpsert d ic.2.owner (confStep tcd ic.1 ic.2)) =
        ownerExecSum owners d :=
      ownerExecSum_upsert_const owners d ic.2.owner _
        (confStep_num_executions tcd ic.1 ic.2)
    calc ownerExecSum owners (processConfs tcd d (ic :: rest)) =
        ownerExecSum owners (dictUpsert d ic.2.owner (confStep tcd ic.1 ic.2)) :=
          ih (dictUpsert d ic.2.owner (confStep tcd ic.1 ic.2))
    _ = ownerExecSum owners d := h1

/-- Each processed transaction adds exactly one to
`nonOwnerExecutionCount + Σ txsExecuted over owner ledgers`. -/
theorem processTx_execSum (owners : List String) (st : IngestState) (tx : Transaction) :
    (processTx owners st tx).num_externally_executed_transactions +
      ownerExecSum owners (processTx owners st tx).signer_stats_dict =
    st.num_externally_executed_transactions +
      ownerExecSum owners st.signer_stats_dict + 1 := by
  unfold processTx
  by_cases hx : tx.executor ∈ owners
  · simp only [hx, if_true]
    rw [processConfs_execSum,
      ownerExecSum_upsert_inc owners _ tx.executor _ hx (execStep_num_executions tx.fee)]
    omega
  · simp only [hx, if_false]
    rw [processConfs_execSum]
    omega

theorem foldl_processTx_execSum (owners : List String) (l : List Transaction) :
    ∀ st : IngestState,
      (l.foldl (processTx owners) st).num_externally_executed_transactions +
        ownerExecSum owners (l.foldl (processTx owners) st).signer_stats_dict =
      st.num_externally_executed_transactions +
        ownerExecSum owners st.signer_stats_dict + l.length := by
  induction l with
  | nil => intro st; simp
  | cons tx rest ih =>
    intro st
    have h1 := ih (processTx owners st tx)
    have h2 := processTx_execSum owners st tx
    simp only [List.foldl_cons, List.length_cons]
    omega

/-- C3: after ingestion, the eligible-transaction count equals the non-owner
execution count plus the total of `txsExecuted` over the owner ledgers, and a
non-owner address never accumulates an execution or gas credit in any ledger. -/
theorem ingest_eligible_count_split
    (owners : List String) (fb : Int) (txs : List Transaction) :
    numExecutedTransactions fb txs =
      (ingest owners fb txs).num_externally_executed_transactions +
        ownerExecSum owners (ingest owners fb txs).signer_stats_dict ∧
    ∀ p ∈ (ingest owners fb txs).signer_stats_dict,
      p.1 ∉ owners → p.2.num_executions = 0 ∧ p.2.gas_spent = 0 := by
  constructor
  · have h := foldl_processTx_execSum owners (executedTransactions fb txs) initState
    rw [ingest, numExecutedTransactions]
    rw [h]
    simp [initState, ownerExecSum]
  · refine ingest_forall owners fb txs ?_ ?_ ?_ ?_
    · intro fee k hk s hs
      dsimp only at hs ⊢
      intro hknot
      exact absurd hk hknot
    · intro fee k hk
      dsimp only
      intro hknot
      exact absurd hk hknot
    · intro tcd k i c s hs
      dsimp only at hs ⊢
      intro hknot
      obtain ⟨h1, h2⟩ := hs hknot
      rw [confStep_num_executions, confStep_gas_spent]
      exact ⟨h1, h2⟩
    · intro tcd k i c
      dsimp only
      intro hknot
      rw [confStep_num_executions, confStep_gas_spent]
      exact ⟨rfl, rfl⟩

/-- Witness for C3: one eligible transaction executed by the non-owner "C"
gives count `1 = 1 + 0`, and the ledger of the non-owner co-signer "D" carries
no execution or gas credit. -/
theorem ingest_eligible_count_split_witness :
    (numExecutedTransactions 0 [sampleTxNonOwner] =
      (ingest sampleOwners 0 [sampleTxNonOwner]).num_externally_executed_transactions +
        ownerExecSum sampleOwners
          (ingest sampleOwners 0 [sampleTxNonOwner]).signer_stats_dict) ∧
    ((("D", (⟨"D", 0, 1, [2], 0, 0⟩ : SafeSignerStats)) :
        String × SafeSignerStats).2.num_executions = 0 ∧
      (("D", (⟨"D", 0, 1, [2], 0, 0⟩ : SafeSignerStats)) :
        String × SafeSignerStats).2.gas_spent = 0) := by
  refine ⟨(ingest_eligible_count_split sampleOwners 0 [sampleTxNonOwner]).1, ?_⟩
  refine (ingest_eligible_count_split sampleOwners 0 [sampleTxNonOwner]).2
    ("D", ⟨"D", 0, 1, [2], 0, 0⟩) ?_ (by decide)
  have hAD : ("A" : String) ≠ "D" := by decide
  have hCA : ("C" : String) ≠ "A" := by decide
  have hCB : ("C" : String) ≠ "B" := by decide
  norm_num [ingest, executedTransactions, eligibleTx, initState, processTx, processConfs,
    dictUpsert, execStep, confStep, List.enum, List.enumFrom, SafeSignerStats.new,
    SafeSignerStats.increment_execution_count, SafeSignerStats.add_gas_spent,
    SafeSignerStats.increment_signing_count, SafeSignerStats.increment_tx_creation_count,
    SafeSignerStats.add_signing_time, sampleTxNonOwner, sampleOwners, hAD, hCA, hCB]

/-- C4 (defect): `add_signing_time` does not append `(signedAt − createdAt)/60`.
Because the code reads `timedelta.seconds` — the normalized seconds-within-a-day
component — a signing 60 s *before* creation records `+1439` minutes instead of
the pass-through `−1`, and a signing 25 h (90000 s) after creation records `60`
minutes instead of `1500`. -/
theorem add_signing_time_wraps_mod_day :
    ((SafeSignerStats.new "A").add_signing_time 60 0).signing_times = [1439] ∧
    ((0 : ℚ) - 60) / 60 = -1 ∧
    ((SafeSignerStats.new "A").add_signing_time 0 90000).signing_times = [60] ∧
    ((90000 : ℚ) - 0) / 60 = 1500 := by
  norm_num [SafeSignerStats.add_signing_time, SafeSignerStats.new]

/-- C6 (defect): the rendering phase does not guard the empty-sample condition.
Already for the spec's own end-to-end scenario (`sampleTx`: created and signed
by "A", co-signed by "B", executed by "A") the creator "A" has an empty
signing-latency sample, and the unguarded `SummaryStats` call at line 163
raises (`renderSummaries` is `none`). -/
theorem renderSummaries_unguarded_empty_sample :
    renderSummaries (ingest sampleOwners 0 [sampleTx]) = none := by
  have hAB : ("A" : String) ≠ "B" := by decide
  have hstate : ingest sampleOwners 0 [sampleTx] =
      { signer_stats_dict :=
          [("A", ⟨"A", 1, 1, [], 1, 21 / 10 ^ 4⟩), ("B", ⟨"B", 0, 1, [5], 0, 0⟩)]
        num_externally_executed_transactions := 0
        tx_execution_times := [10] } := by
    norm_num [ingest, executedTransactions, eligibleTx, initState, processTx, processConfs,
      dictUpsert, execStep, confStep, List.enum, List.enumFrom, SafeSignerStats.new,
      SafeSignerStats.increment_execution_count, SafeSignerStats.add_gas_spent,
      SafeSignerStats.increment_signing_count, SafeSignerStats.increment_tx_creation_count,
      SafeSignerStats.add_signing_time, sampleTx, sampleOwners, hAB]
  rw [hstate]
  simp [renderSummaries, SafeSignerStats.signing_summary_stats, summaryStats,
    List.mapM, List.mapM.loop]
